import Mathlib

/-!
Verification of the `twine-tlv` TLV codec and its fixed-capacity collection
(`twine-tlv/src/lib.rs`, `collection.rs`, `traits.rs`), plus the `Timestamp`
packing of `twine-codec/src/dataset/timestamp.rs` and the `Channel` codec of
`twine-codec/src/radio/channel.rs`.

Byte buffers are `List Nat` (each entry a byte value, `< 256` where it
matters).  Machine arithmetic is `Nat` with explicit truncation where the Rust
performs a narrowing cast.  Rust code paths that panic (out-of-bounds reads of
the `bytes` cursors, out-of-bounds slice indexing, and debug-mode integer
overflow / underflow) are modelled as `Option.none`; every other outcome is
`some`, carrying an `Except TwineTlvError` result where the Rust returns a
`Result`.
-/

/-- Error type of `twine-tlv/src/error.rs` (hex errors omitted: not used by
the codec operations modelled here). -/
inductive TwineTlvError where
  | BufferDecodeTooShort
  | BufferDecodeUnexpectedTlvLength (expected found : Nat)
  | BufferEncodeTooShort
  | BufferMaxLength
  | BufferWrongType
deriving DecidableEq, Repr

deriving instance DecidableEq for Except

/-- The `bytes::Buf::get_u8` reader on a `&[u8]`: panics (`none`) on an empty
buffer, else returns the first byte and the advanced buffer. -/
def getU8 : List Nat → Option (Nat × List Nat)
  | [] => none
  | b :: rest => some (b, rest)

/-- The `bytes::Buf::get_u16` reader (big endian): panics when fewer than two
bytes remain. -/
def getU16 : List Nat → Option (Nat × List Nat)
  | hi :: lo :: rest => some (hi * 256 + lo, rest)
  | _ => none

/-- `GetTlvLength for &[u8]` (`traits.rs`): one length byte, or the `0xFF`
marker followed by a big-endian `u16`. -/
def getTlvLength (buffer : List Nat) : Option (Nat × List Nat) :=
  match getU8 buffer with
  | none => none
  | some (startLen, rest) =>
    if startLen = 255 then getU16 rest else some (startLen, rest)

/-- A `&mut [u8]` viewed as a `BufMut` cursor: `done` holds the bytes already
written (in order), `rest` the remaining writable suffix.  The full slice is
always `done ++ rest`. -/
structure BufMutSlice where
  done : List Nat
  rest : List Nat
deriving DecidableEq, Repr

/-- `bytes::BufMut::put_u8` on a `&mut [u8]`: panics when no space remains. -/
def putU8 (b : Nat) (w : BufMutSlice) : Option BufMutSlice :=
  match w.rest with
  | [] => none
  | _ :: rest => some ⟨w.done ++ [b], rest⟩

/-- `bytes::BufMut::put_u16` (big endian) on a `&mut [u8]`: panics when fewer
than two writable bytes remain.  The argument is truncated to 16 bits as the
Rust call sites pass a `u16`. -/
def putU16 (n : Nat) (w : BufMutSlice) : Option BufMutSlice :=
  match w.rest with
  | _ :: _ :: rest => some ⟨w.done ++ [n % 65536 / 256, n % 256], rest⟩
  | _ => none

/-- `PutTlvLength for &mut [u8]` (`traits.rs`): one byte when `length < 255`,
otherwise the `0xFF` marker and the length as a big-endian `u16`. -/
def putTlvLength (length : Nat) (w : BufMutSlice) : Option BufMutSlice :=
  if length < 255 then
    putU8 length w
  else
    match putU8 255 w with
    | none => none
    | some w1 => putU16 length w1

/-- `TlvCollection::peek_tlv_len` (`collection.rs`): skip the type byte, read
the length field. -/
def peekTlvLen (buffer : List Nat) : Option Nat :=
  match getU8 buffer with
  | none => none
  | some (_, rest) =>
    match getTlvLength rest with
    | none => none
    | some (len, _) => some len

/-- `TlvCollection::next_tlv_position` (`collection.rs`).  The standard branch
computes `(start_len + 2) as u16` where the addition is performed in `u8`, so
a length byte of `0xFE` or `0xFF`-adjacent values overflows (debug panic,
modelled as `none`); the extended branch computes `len + 4` in `u16`, which
overflows for `len ≥ 0xFFFC`. -/
def nextTlvPosition (buffer : List Nat) : Option Nat :=
  match getU8 buffer with
  | none => none
  | some (_, rest) =>
    match getU8 rest with
    | none => none
    | some (startLen, rest2) =>
      if startLen = 255 then
        match getU16 rest2 with
        | none => none
        | some (len, _) => if len + 4 ≤ 65535 then some (len + 4) else none
      else
        if startLen + 2 ≤ 255 then some (startLen + 2) else none

/-- Loop body of `TlvCollection::find_buffer_len` (`collection.rs`).  `fuel`
only bounds the iteration count; starting from `buffer.length` it never runs
out, because each iteration advances the cursor by at least two bytes. -/
def findBufferLenAux (buffer : List Nat) (cursor : Nat) : Nat → Option Nat
  | 0 => if cursor < buffer.length then none else some buffer.length
  | fuel + 1 =>
    if cursor < buffer.length then
      match peekTlvLen (buffer.drop cursor) with
      | none => none
      | some 0 => some cursor
      | some (_ + 1) =>
        match nextTlvPosition (buffer.drop cursor) with
        | none => none
        | some pos => findBufferLenAux buffer (cursor + pos) fuel
    else
      some buffer.length

/-- `TlvCollection::find_buffer_len`, the logical length scan backing
`TlvCollection::len`. -/
def findBufferLen (buffer : List Nat) : Option Nat :=
  findBufferLenAux buffer 0 buffer.length

/-- Loop body of `TlvCollection::find_tlv_with_type` (`collection.rs`):
scan `[cursor, limit)`, where `limit` is the logical length.  The type byte is
read by indexing (`buffer[cursor]`, panic when out of bounds), the step width
by `next_tlv_position`; on a type match the record is returned unless its
length field reads `0` (end-of-data sentinel). -/
def findTlvWithTypeAux (tlvType : Nat) (buffer : List Nat) (limit cursor : Nat) :
    Nat → Option (Option (Nat × Nat))
  | 0 => if cursor < limit then none else some none
  | fuel + 1 =>
    if cursor < limit then
      match buffer.drop cursor with
      | [] => none
      | bufferTlvType :: _ =>
        match nextTlvPosition (buffer.drop cursor) with
        | none => none
        | some pos =>
          if bufferTlvType = tlvType then
            match peekTlvLen (buffer.drop cursor) with
            | none => none
            | some 0 => some none
            | some (_ + 1) => some (some (cursor, cursor + pos))
          else
            findTlvWithTypeAux tlvType buffer limit (cursor + pos) fuel
    else
      some none

/-- `TlvCollection::find_tlv_with_type`: computes the logical length, then
scans for the first record with the given type byte, returning its
`start..end` range. -/
def findTlvWithType (tlvType : Nat) (buffer : List Nat) : Option (Option (Nat × Nat)) :=
  match findBufferLen buffer with
  | none => none
  | some len => findTlvWithTypeAux tlvType buffer len 0 buffer.length

/-- `TlvCollection::find_tlv`: slices `buffer[start..end]` out of the found
range; the slice indexing panics when the range's end exceeds the buffer. -/
def findTlv (tlvType : Nat) (buffer : List Nat) : Option (Option (List Nat)) :=
  match findTlvWithType tlvType buffer with
  | none => none
  | some none => some none
  | some (some (s, e)) =>
    if s ≤ e ∧ e ≤ buffer.length then
      some (some ((buffer.drop s).take (e - s)))
    else
      none

/-- `TlvCollection::remove_data_and_compact_buffer` (`collection.rs`): copy
the bytes after the removed range into a zeroed scratch array of the full
capacity, then copy the scratch back starting at the range's start.  Net
effect: the prefix before the range, then the suffix after it, then zero
fill up to the original length. -/
def removeDataAndCompact (buffer : List Nat) (s e : Nat) : List Nat :=
  let kept := buffer.take s ++ buffer.drop e
  kept ++ List.replicate (buffer.length - kept.length) 0

/-- `TlvCollection::remove`: remove the first TLV with the given type byte and
compact; no-op when the type is absent. -/
def removeTlv (tlvType : Nat) (buffer : List Nat) : Option (List Nat) :=
  match findTlvWithType tlvType buffer with
  | none => none
  | some none => some buffer
  | some (some (s, e)) => some (removeDataAndCompact buffer s e)

/-- `encoded_len!` (`traits.rs`), i.e. `TlvLength::tlv_total_len`: the value
length plus a 2-byte header (standard) or 4-byte header (extended). -/
def tlvTotalLen (len : Nat) : Nat :=
  if len < 255 then len + 2 else len + 4

/-- `write_tlv` (`lib.rs`), generic over the value's declared length
(`value.tlv_len()`) and its value encoder (`value.try_encode_tlv_value`).
Returns the final state of the destination slice together with the `Result`.
The available-space computation `original_remaining - 1 - 1` (standard) or
`original_remaining - 1 - 3` (extended) underflows `usize` when the
destination is shorter than the header, a panic (`none`). -/
def writeTlv (buffer : List Nat) (tlvType : Nat) (valueLen : Nat)
    (encodeValue : BufMutSlice → Option (BufMutSlice × Except TwineTlvError Nat)) :
    Option (List Nat × Except TwineTlvError Nat) :=
  let originalRemaining := buffer.length
  if valueLen > 65535 then
    some (buffer, .error .BufferMaxLength)
  else if valueLen ≥ 255 then
    if originalRemaining < 1 + 3 then none
    else
      let availableBytes := originalRemaining - 1 - 3
      if valueLen > availableBytes then some (buffer, .error .BufferEncodeTooShort)
      else
        match putU8 tlvType ⟨[], buffer⟩ with
        | none => none
        | some w1 =>
          match putU8 255 w1 with
          | none => none
          | some w2 =>
            match putU16 valueLen w2 with
            | none => none
            | some w3 =>
              let headerWritten := originalRemaining - w3.rest.length
              match encodeValue w3 with
              | none => none
              | some (w4, .error e) => some (w4.done ++ w4.rest, .error e)
              | some (w4, .ok n) => some (w4.done ++ w4.rest, .ok (headerWritten + n))
  else
    if originalRemaining < 1 + 1 then none
    else
      let availableBytes := originalRemaining - 1 - 1
      if valueLen > availableBytes then some (buffer, .error .BufferEncodeTooShort)
      else
        match putU8 tlvType ⟨[], buffer⟩ with
        | none => none
        | some w1 =>
          match putU8 valueLen w1 with
          | none => none
          | some w2 =>
            let headerWritten := originalRemaining - w2.rest.length
            match encodeValue w2 with
            | none => none
            | some (w4, .error e) => some (w4.done ++ w4.rest, .error e)
            | some (w4, .ok n) => some (w4.done ++ w4.rest, .ok (headerWritten + n))

/-- `TryEncodeTlvValue for [u8; N]` (`traits.rs`): fail with
`BufferEncodeTooShort` when the destination cannot hold all bytes, otherwise
write them one by one. -/
def tryEncodeTlvValueBytes (vs : List Nat) (w : BufMutSlice) :
    Option (BufMutSlice × Except TwineTlvError Nat) :=
  if w.rest.length < vs.length then
    some (w, .error .BufferEncodeTooShort)
  else
    some (⟨w.done ++ vs, w.rest.drop vs.length⟩, .ok vs.length)

/-- `write_tlv` applied to a byte-array value, whose `tlv_len` is the number
of bytes. -/
def writeTlvBytes (buffer : List Nat) (tlvType : Nat) (vs : List Nat) :
    Option (List Nat × Except TwineTlvError Nat) :=
  writeTlv buffer tlvType vs.length (tryEncodeTlvValueBytes vs)

/-- `TlvCollection::push` for a byte-array value: compute the logical length,
reject with `BufferMaxLength` when `len + tlv_len()` exceeds the capacity
(the capacity is the backing array's length), otherwise encode at the end. -/
def pushBytes (buffer : List Nat) (tlvType : Nat) (vs : List Nat) :
    Option (List Nat × Except TwineTlvError Nat) :=
  match findBufferLen buffer with
  | none => none
  | some len =>
    if len + vs.length > buffer.length then
      some (buffer, .error .BufferMaxLength)
    else
      match writeTlvBytes (buffer.drop len) tlvType vs with
      | none => none
      | some (suffix, res) => some (buffer.take len ++ suffix, res)

/-- `TlvCollection::replace` for a byte-array value: when the type is found,
either overwrite in place (constant-length types) or remove, compact and push
(variable-length types); no-op when absent. -/
def replaceBytes (buffer : List Nat) (tlvType : Nat) (lenIsConstant : Bool)
    (vs : List Nat) : Option (List Nat × Except TwineTlvError Unit) :=
  match findTlvWithType tlvType buffer with
  | none => none
  | some none => some (buffer, .ok ())
  | some (some (s, e)) =>
    if lenIsConstant then
      match writeTlvBytes (buffer.drop s) tlvType vs with
      | none => none
      | some (suffix, .error err) => some (buffer.take s ++ suffix, .error err)
      | some (suffix, .ok _) => some (buffer.take s ++ suffix, .ok ())
    else
      let compacted := removeDataAndCompact buffer s e
      match pushBytes compacted tlvType vs with
      | none => none
      | some (nb, .error err) => some (nb, .error err)
      | some (nb, .ok _) => some (nb, .ok ())

/-- The derive-generated `DecodeTlvUnchecked::decode_tlv_unchecked`
(`twine-macros/src/tlv.rs`): skip the type byte and the length field, then
decode the value. -/
def decodeTlvUnchecked {α : Type} (decodeValue : List Nat → Option α)
    (buffer : List Nat) : Option α :=
  match getU8 buffer with
  | none => none
  | some (_, rest) =>
    match getTlvLength rest with
    | none => none
    | some (_, rest2) => decodeValue rest2

/-- Write loop of `DecodeTlvValueUnchecked for [u8; N]`: store each input
byte at index `i` of the accumulator array; indexing past the array's end
panics. -/
def arrayFill (arr : List Nat) (i : Nat) : List Nat → Option (List Nat)
  | [] => some arr
  | b :: rest =>
    if i < arr.length then arrayFill (arr.set i b) (i + 1) rest else none

/-- `DecodeTlvValueUnchecked for [u8; N]` (`traits.rs`): start from a zeroed
array of size `n` and copy in `buffer.len()` bytes. -/
def decodeTlvValueUncheckedArray (n : Nat) (buffer : List Nat) : Option (List Nat) :=
  arrayFill (List.replicate n 0) 0 buffer

/-- The `Channel` value (`twine-codec/src/radio/channel.rs`): an IEEE 802.15.4
channel with a page byte and a 16-bit channel number; TLV type `0x00`,
constant TLV length `3`. -/
structure Channel where
  channel : Nat
  page : Nat
deriving DecidableEq, Repr

/-- `TryEncodeTlvValue for Channel`: put the page byte then the channel as a
big-endian `u16`, returning `tlv_len()` (= 3). -/
def channelTryEncodeTlvValue (c : Channel) (w : BufMutSlice) :
    Option (BufMutSlice × Except TwineTlvError Nat) :=
  match putU8 c.page w with
  | none => none
  | some w1 =>
    match putU16 c.channel w1 with
    | none => none
    | some w2 => some (w2, .ok 3)

/-- `TryEncodeTlv for Channel` (derive-generated): `write_tlv` with the
channel's type byte `0x00` and constant length 3. -/
def channelTryEncodeTlv (buffer : List Nat) (c : Channel) :
    Option (List Nat × Except TwineTlvError Nat) :=
  writeTlv buffer 0 3 (channelTryEncodeTlvValue c)

/-- `DecodeTlvValueUnchecked for Channel`: page byte, then big-endian
channel. -/
def channelDecodeTlvValueUnchecked (buffer : List Nat) : Option Channel :=
  match getU8 buffer with
  | none => none
  | some (page, rest) =>
    match getU16 rest with
    | none => none
    | some (channel, _) => some ⟨channel, page⟩

/-- `DecodeTlvUnchecked for Channel` (derive-generated). -/
def channelDecodeTlvUnchecked (buffer : List Nat) : Option Channel :=
  decodeTlvUnchecked channelDecodeTlvValueUnchecked buffer

/-- `From<(u64, u16, Authoritative)> for Timestamp`
(`twine-codec/src/dataset/timestamp.rs`): `(seconds << 16) | (ticks & 0xfffe)
| authoritative-bit`, in `u64` arithmetic (the left shift discards bits of
`seconds` above 2^48). -/
def timestampFromParts (seconds ticks : Nat) (auth : Bool) : Nat :=
  seconds * 65536 % 18446744073709551616 ||| ticks &&& 65534 |||
    (if auth then 1 else 0)

/-- `Timestamp::seconds`: `self.0 >> 16`. -/
def timestampSeconds (t : Nat) : Nat := t / 65536

/-- `Timestamp::ticks`: `((self.0 >> 1) & 0x7fff) as u16`. -/
def timestampTicks (t : Nat) : Nat := t / 2 &&& 32767

/-- `Timestamp::is_authoritative`: `(self.0 & 0x1) != 0`. -/
def timestampIsAuthoritative (t : Nat) : Bool := t &&& 1 ≠ 0

/-- Modelled from the spec (refinement counterpart of `findBufferLen`): the
logical-length scan as §"logical_len" words it — start at offset 0, peek each
record's length field, stop at the first position whose length field reads 0,
advance otherwise by the record's total encoded size (2 + length, or 4 +
length for extended lengths), and return Capacity when the cursor reaches or
passes it. -/
def logicalLenSpecAux (buffer : List Nat) (cursor : Nat) : Nat → Option Nat
  | 0 => if cursor < buffer.length then none else some buffer.length
  | fuel + 1 =>
    if cursor < buffer.length then
      match peekTlvLen (buffer.drop cursor) with
      | none => none
      | some 0 => some cursor
      | some (len + 1) =>
        logicalLenSpecAux buffer (cursor + tlvTotalLen (len + 1)) fuel
    else
      some buffer.length

/-- Modelled from the spec: the full logical-length scan. -/
def logicalLenSpec (buffer : List Nat) : Option Nat :=
  logicalLenSpecAux buffer 0 buffer.length

/-- A TLV record as a type byte plus value bytes; used to describe
well-formed collection contents in the theorems below. -/
structure TlvRec where
  t : Nat
  value : List Nat
deriving DecidableEq, Repr

/-- The encoded length field: one byte below 255, else the `0xFF` marker and
the big-endian 16-bit length (mirrors `PutTlvLength`). -/
def encodeTlvLength (len : Nat) : List Nat :=
  if len < 255 then [len] else [255, len % 65536 / 256, len % 256]

/-- The full encoding of one record: type byte, length field, value bytes. -/
def encodeRecord (r : TlvRec) : List Nat :=
  r.t :: encodeTlvLength r.value.length ++ r.value

/-- Back-to-back encoding of a record sequence. -/
def encodeRecords (rs : List TlvRec) : List Nat :=
  rs.foldr (fun r acc => encodeRecord r ++ acc) []

/-- A record the collection scanner handles without panicking: nonzero value
length (zero length is the end-of-data sentinel), length byte below `0xFE`
for standard lengths (`(start_len + 2) as u16` adds in `u8`), extended length
at most `0xFFFB` (`len + 4` adds in `u16`), and a type byte. -/
def WFRec (r : TlvRec) : Prop :=
  1 ≤ r.value.length ∧ r.value.length ≤ 65531 ∧ r.value.length ≠ 254 ∧ r.t < 256

/-! ## Characterisation of `write_tlv` on byte-array values -/

theorem writeTlvBytes_maxlen (buffer : List Nat) (t : Nat) (vs : List Nat)
    (h : vs.length > 65535) :
    writeTlvBytes buffer t vs = some (buffer, .error .BufferMaxLength) := by
  simp [writeTlvBytes, writeTlv, h]

theorem writeTlvBytes_underflow_std (buffer : List Nat) (t : Nat) (vs : List Nat)
    (hlt : vs.length < 255) (hshort : buffer.length < 2) :
    writeTlvBytes buffer t vs = none := by
  simp only [writeTlvBytes, writeTlv]
  rw [if_neg (by omega), if_neg (by omega), if_pos (by omega)]

theorem writeTlvBytes_tooshort_std (buffer : List Nat) (t : Nat) (vs : List Nat)
    (hlt : vs.length < 255) (h2 : 2 ≤ buffer.length)
    (htight : buffer.length < 2 + vs.length) :
    writeTlvBytes buffer t vs = some (buffer, .error .BufferEncodeTooShort) := by
  simp only [writeTlvBytes, writeTlv]
  rw [if_neg (by omega), if_neg (by omega), if_neg (by omega), if_pos (by omega)]

theorem writeTlvBytes_ok_std (buffer : List Nat) (t : Nat) (vs : List Nat)
    (hlt : vs.length < 255) (hfit : 2 + vs.length ≤ buffer.length) :
    writeTlvBytes buffer t vs =
      some (t :: vs.length :: (vs ++ buffer.drop (2 + vs.length)),
        .ok (2 + vs.length)) := by
  obtain ⟨a, b, rest, rfl⟩ : ∃ a b rest, buffer = a :: b :: rest := by
    cases buffer with
    | nil => simp at hfit
    | cons a tl =>
      cases tl with
      | nil => simp at hfit; omega
      | cons b rest => exact ⟨a, b, rest, rfl⟩
  have hrest : vs.length ≤ rest.length := by simp at hfit; omega
  have hdrop : (a :: b :: rest).drop (2 + vs.length) = rest.drop vs.length := by
    have h2 : 2 + vs.length = vs.length + 1 + 1 := by omega
    rw [h2, List.drop_succ_cons, List.drop_succ_cons]
  have c1 : ¬ (vs.length > 65535) := by omega
  have c2 : ¬ (vs.length ≥ 255) := by omega
  have c3 : ¬ ((a :: b :: rest).length < 1 + 1) := by simp
  have c4 : ¬ (vs.length > (a :: b :: rest).length - 1 - 1) := by
    simp only [List.length_cons]; omega
  have c5 : ¬ (rest.length < vs.length) := by omega
  rw [hdrop]
  simp only [writeTlvBytes, writeTlv, putU8, tryEncodeTlvValueBytes, c1, c2, c3, c4, c5,
    if_false, List.length_cons, List.nil_append, List.cons_append, List.append_assoc]
  simp
  rw [if_neg c5]
  have harith : rest.length + 1 + 1 - rest.length + vs.length = 2 + vs.length := by omega
  rw [harith]

theorem writeTlvBytes_underflow_ext (buffer : List Nat) (t : Nat) (vs : List Nat)
    (hge : 255 ≤ vs.length) (h65 : vs.length ≤ 65535) (hshort : buffer.length < 4) :
    writeTlvBytes buffer t vs = none := by
  simp only [writeTlvBytes, writeTlv]
  rw [if_neg (by omega), if_pos (by omega), if_pos (by omega)]

theorem writeTlvBytes_tooshort_ext (buffer : List Nat) (t : Nat) (vs : List Nat)
    (hge : 255 ≤ vs.length) (h65 : vs.length ≤ 65535) (h4 : 4 ≤ buffer.length)
    (htight : buffer.length < 4 + vs.length) :
    writeTlvBytes buffer t vs = some (buffer, .error .BufferEncodeTooShort) := by
  simp only [writeTlvBytes, writeTlv]
  rw [if_neg (by omega), if_pos (by omega), if_neg (by omega), if_pos (by omega)]

theorem writeTlvBytes_ok_ext (buffer : List Nat) (t : Nat) (vs : List Nat)
    (hge : 255 ≤ vs.length) (h65 : vs.length ≤ 65535)
    (hfit : 4 + vs.length ≤ buffer.length) :
    writeTlvBytes buffer t vs =
      some (t :: 255 :: vs.length / 256 :: vs.length % 256 ::
          (vs ++ buffer.drop (4 + vs.length)),
        .ok (4 + vs.length)) := by
  obtain ⟨a, b, c, d, rest, rfl⟩ : ∃ a b c d rest, buffer = a :: b :: c :: d :: rest := by
    cases buffer with
    | nil => simp at hfit
    | cons a tl =>
      cases tl with
      | nil => simp at hfit; omega
      | cons b tl2 =>
        cases tl2 with
        | nil => simp at hfit; omega
        | cons c tl3 =>
          cases tl3 with
          | nil => simp at hfit; omega
          | cons d rest => exact ⟨a, b, c, d, rest, rfl⟩
  have hrest : vs.length ≤ rest.length := by simp at hfit; omega
  have hdrop : (a :: b :: c :: d :: rest).drop (4 + vs.length) = rest.drop vs.length := by
    have h4 : 4 + vs.length = vs.length + 1 + 1 + 1 + 1 := by omega
    rw [h4, List.drop_succ_cons, List.drop_succ_cons, List.drop_succ_cons,
      List.drop_succ_cons]
  have hmod : vs.length % 65536 = vs.length := Nat.mod_eq_of_lt (by omega)
  have c1 : ¬ (vs.length > 65535) := by omega
  have c2 : vs.length ≥ 255 := hge
  have c3 : ¬ ((a :: b :: c :: d :: rest).length < 1 + 3) := by
    simp only [List.length_cons]; omega
  have c4 : ¬ (vs.length > (a :: b :: c :: d :: rest).length - 1 - 3) := by
    simp only [List.length_cons]; omega
  have c5 : ¬ (rest.length < vs.length) := by omega
  rw [hdrop]
  simp only [writeTlvBytes, writeTlv, putU8, putU16, tryEncodeTlvValueBytes, c1, c2, c3, c4,
    if_false, if_true, List.length_cons, List.nil_append, List.cons_append,
    List.append_assoc]
  have harith : rest.length + 1 + 1 + 1 + 1 - rest.length + vs.length = 4 + vs.length := by
    omega
  simp [hmod, c5, harith]

theorem writeTlvBytes_error_inv (buffer : List Nat) (t : Nat) (vs : List Nat)
    (suffix : List Nat) (e : TwineTlvError)
    (h : writeTlvBytes buffer t vs = some (suffix, .error e)) :
    suffix = buffer ∧ (e = .BufferMaxLength ∨ e = .BufferEncodeTooShort) := by
  by_cases h1 : vs.length > 65535
  · rw [writeTlvBytes_maxlen buffer t vs h1] at h
    simp at h
    exact ⟨h.1.symm, Or.inl h.2.symm⟩
  · by_cases h2 : vs.length ≥ 255
    · by_cases h3 : buffer.length < 4
      · rw [writeTlvBytes_underflow_ext buffer t vs h2 (by omega) h3] at h
        simp at h
      · by_cases h4 : buffer.length < 4 + vs.length
        · rw [writeTlvBytes_tooshort_ext buffer t vs h2 (by omega) (by omega) h4] at h
          simp at h
          exact ⟨h.1.symm, Or.inr h.2.symm⟩
        · rw [writeTlvBytes_ok_ext buffer t vs h2 (by omega) (by omega)] at h
          simp at h
    · by_cases h3 : buffer.length < 2
      · rw [writeTlvBytes_underflow_std buffer t vs (by omega) h3] at h
        simp at h
      · by_cases h4 : buffer.length < 2 + vs.length
        · rw [writeTlvBytes_tooshort_std buffer t vs (by omega) (by omega) h4] at h
          simp at h
          exact ⟨h.1.symm, Or.inr h.2.symm⟩
        · rw [writeTlvBytes_ok_std buffer t vs (by omega) (by omega)] at h
          simp at h

/-! ## The logical-length scan -/

theorem findBufferLenAux_le (buffer : List Nat) :
    ∀ fuel cursor L, findBufferLenAux buffer cursor fuel = some L → L ≤ buffer.length := by
  intro fuel
  induction fuel with
  | zero =>
    intro cursor L h
    simp only [findBufferLenAux] at h
    split at h
    · exact absurd h (by simp)
    · simp at h; omega
  | succ n ih =>
    intro cursor L h
    simp only [findBufferLenAux] at h
    split at h
    · rename_i hc
      split at h
      · exact absurd h (by simp)
      · simp at h; omega
      · split at h
        · exact absurd h (by simp)
        · exact ih _ L h
    · simp at h; omega

theorem findBufferLen_le (buffer : List Nat) (L : Nat)
    (h : findBufferLen buffer = some L) : L ≤ buffer.length :=
  findBufferLenAux_le buffer buffer.length 0 L h

theorem pushBytes_unfold (buffer : List Nat) (t : Nat) (vs : List Nat) (L : Nat)
    (hfind : findBufferLen buffer = some L) :
    pushBytes buffer t vs =
      if L + vs.length > buffer.length then
        some (buffer, .error .BufferMaxLength)
      else
        match writeTlvBytes (buffer.drop L) t vs with
        | none => none
        | some (suffix, res) => some (buffer.take L ++ suffix, res) := by
  simp only [pushBytes, hfind]

/-- C7 — Whenever `push` returns an error, the backing buffer is byte-for-byte
unchanged: the capacity pre-check returns before writing, and `write_tlv`
performs all its space checks before its first `put_u8`, so its error returns
also leave the destination untouched. -/
theorem push_error_atomic (buffer : List Nat) (t : Nat) (vs : List Nat)
    (nb : List Nat) (e : TwineTlvError)
    (h : pushBytes buffer t vs = some (nb, .error e)) : nb = buffer := by
  cases hf : findBufferLen buffer with
  | none => rw [pushBytes, hf] at h; simp at h
  | some L =>
    rw [pushBytes_unfold buffer t vs L hf] at h
    by_cases hover : L + vs.length > buffer.length
    · rw [if_pos hover] at h
      simp at h
      exact h.1.symm
    · rw [if_neg hover] at h
      cases hw : writeTlvBytes (buffer.drop L) t vs with
      | none => rw [hw] at h; simp at h
      | some pr =>
        obtain ⟨suffix, res⟩ := pr
        rw [hw] at h
        cases res with
        | error e2 =>
          obtain ⟨hs, -⟩ := writeTlvBytes_error_inv (buffer.drop L) t vs suffix e2 hw
          simp at h
          rw [← h.1, hs, List.take_append_drop]
        | ok k => simp at h

/-- C7 witness — the concrete failing push of a 2-byte value into a collection
with 6 logical bytes out of 8 leaves the buffer unchanged. -/
theorem push_error_atomic_witness :
    ([1, 4, 170, 170, 170, 170, 0, 0] : List Nat) = [1, 4, 170, 170, 170, 170, 0, 0] :=
  push_error_atomic [1, 4, 170, 170, 170, 170, 0, 0] 2 [187, 187]
    [1, 4, 170, 170, 170, 170, 0, 0] .BufferEncodeTooShort (by decide)

/-- C1 (amended) — `push` succeeds iff
`logical_len() + total_encoded_size(value) ≤ Capacity` (for value lengths
representable in the extended length field); a push failing the `len +
tlv_len() > CAPACITY` pre-check returns `BufferMaxLength`, and every failing
push that returns an error returns either `BufferMaxLength` or
`BufferEncodeTooShort` (the latter when only the 2- or 4-byte header
overflows the capacity). -/
theorem push_capacity_boundary (buffer : List Nat) (t : Nat) (vs : List Nat) (L : Nat)
    (hfind : findBufferLen buffer = some L) (h65 : vs.length ≤ 65535) :
    ((∃ nb k, pushBytes buffer t vs = some (nb, .ok k)) ↔
      L + tlvTotalLen vs.length ≤ buffer.length)
    ∧ (buffer.length < L + vs.length →
        pushBytes buffer t vs = some (buffer, .error .BufferMaxLength))
    ∧ (∀ nb e, pushBytes buffer t vs = some (nb, .error e) →
        e = .BufferMaxLength ∨ e = .BufferEncodeTooShort) := by
  have hL := findBufferLen_le buffer L hfind
  have hdlen : (buffer.drop L).length = buffer.length - L := by simp
  have hunfold := pushBytes_unfold buffer t vs L hfind
  by_cases hover : L + vs.length > buffer.length
  · rw [if_pos hover] at hunfold
    rw [hunfold]
    refine ⟨?_, fun _ => rfl, ?_⟩
    · simp only [tlvTotalLen]
      constructor
      · rintro ⟨nb, k, hk⟩; simp at hk
      · intro hle
        split at hle <;> omega
    · intro nb e he
      simp at he
      exact Or.inl he.2.symm
  · rw [if_neg hover] at hunfold
    by_cases hstd : vs.length < 255
    · by_cases hun : buffer.length - L < 2
      · rw [writeTlvBytes_underflow_std (buffer.drop L) t vs hstd (by omega)] at hunfold
        rw [hunfold]
        refine ⟨?_, fun hc => absurd hc (by omega), ?_⟩
        · simp only [tlvTotalLen, if_pos hstd]
          constructor
          · rintro ⟨nb, k, hk⟩; simp at hk
          · intro hle; omega
        · intro nb e he; simp at he
      · by_cases htight : buffer.length - L < 2 + vs.length
        · rw [writeTlvBytes_tooshort_std (buffer.drop L) t vs hstd (by omega)
            (by omega)] at hunfold
          rw [hunfold]
          refine ⟨?_, fun hc => absurd hc (by omega), ?_⟩
          · simp only [tlvTotalLen, if_pos hstd]
            constructor
            · rintro ⟨nb, k, hk⟩; simp at hk
            · intro hle; omega
          · intro nb e he
            simp at he
            exact Or.inr he.2.symm
        · rw [writeTlvBytes_ok_std (buffer.drop L) t vs hstd (by omega)] at hunfold
          rw [hunfold]
          refine ⟨?_, fun hc => absurd hc (by omega), ?_⟩
          · simp only [tlvTotalLen, if_pos hstd]
            constructor
            · intro _; omega
            · intro _; exact ⟨_, _, rfl⟩
          · intro nb e he; simp at he
    · by_cases htight : buffer.length - L < 4 + vs.length
      · rw [writeTlvBytes_tooshort_ext (buffer.drop L) t vs (by omega) h65
          (by omega) (by omega)] at hunfold
        rw [hunfold]
        refine ⟨?_, fun hc => absurd hc (by omega), ?_⟩
        · simp only [tlvTotalLen, if_neg hstd]
          constructor
          · rintro ⟨nb, k, hk⟩; simp at hk
          · intro hle; omega
        · intro nb e he
          simp at he
          exact Or.inr he.2.symm
      · rw [writeTlvBytes_ok_ext (buffer.drop L) t vs (by omega) h65
          (by omega)] at hunfold
        rw [hunfold]
        refine ⟨?_, fun hc => absurd hc (by omega), ?_⟩
        · simp only [tlvTotalLen, if_neg hstd]
          constructor
          · intro _; omega
          · intro _; exact ⟨_, _, rfl⟩
        · intro nb e he; simp at he

/-- C1 witness — concrete instantiation: collection `[01 04 AA AA AA AA 00 00]`
(logical length 6, capacity 8) and a 2-byte value. -/
theorem push_capacity_boundary_witness :
    ((∃ nb k, pushBytes [1, 4, 170, 170, 170, 170, 0, 0] 2 [187, 187] = some (nb, .ok k)) ↔
      6 + tlvTotalLen ([187, 187] : List Nat).length ≤
        ([1, 4, 170, 170, 170, 170, 0, 0] : List Nat).length)
    ∧ (([1, 4, 170, 170, 170, 170, 0, 0] : List Nat).length <
        6 + ([187, 187] : List Nat).length →
        pushBytes [1, 4, 170, 170, 170, 170, 0, 0] 2 [187, 187] =
          some ([1, 4, 170, 170, 170, 170, 0, 0], .error .BufferMaxLength))
    ∧ (∀ nb e, pushBytes [1, 4, 170, 170, 170, 170, 0, 0] 2 [187, 187] =
        some (nb, .error e) →
        e = .BufferMaxLength ∨ e = .BufferEncodeTooShort) :=
  push_capacity_boundary [1, 4, 170, 170, 170, 170, 0, 0] 2 [187, 187] 6
    (by decide) (by decide)

/-- C1 counterexample — a push that must fail (logical length 6 plus total
encoded size 4 exceeds capacity 8) fails with `BufferEncodeTooShort`, not
`BufferMaxLength`: the pre-check compares `len + tlv_len()` (the value length)
against the capacity, so header-only overflows fall through to `write_tlv`. -/
theorem push_failing_error_kind_cex :
    findBufferLen [1, 4, 170, 170, 170, 170, 0, 0] = some 6
    ∧ ([1, 4, 170, 170, 170, 170, 0, 0] : List Nat).length < 6 + tlvTotalLen 2
    ∧ pushBytes [1, 4, 170, 170, 170, 170, 0, 0] 2 [187, 187] =
        some ([1, 4, 170, 170, 170, 170, 0, 0], .error .BufferEncodeTooShort)
    ∧ TwineTlvError.BufferEncodeTooShort ≠ TwineTlvError.BufferMaxLength := by
  decide

/-! ## Timestamp packing -/

theorem or_div_two_pow (a b k : Nat) : (a ||| b) / 2 ^ k = a / 2 ^ k ||| b / 2 ^ k := by
  induction k with
  | zero => simp
  | succ n ih =>
    have h : ∀ x : Nat, x / 2 ^ (n + 1) = x / 2 ^ n / 2 := by
      intro x
      rw [Nat.pow_succ]
      exact (Nat.div_div_eq_div_mul x _ 2).symm
    rw [h, h, h, ih, Nat.or_div_two]

theorem or_one_of_even (T : Nat) (he : T % 2 = 0) : T ||| 1 = T + 1 := by
  have hd : (T ||| 1) / 2 = T / 2 := by
    rw [Nat.or_div_two]
    norm_num
  have hm : (T ||| 1) % 2 = 1 := by
    rw [Nat.or_mod_two_eq_one]
    right
    norm_num
  omega


theorem timestamp_pack_core (s t c : Nat) (hs : s < 281474976710656)
    (ht : t < 65536) (hc : c ≤ 1) :
    (s * 65536 % 18446744073709551616 ||| t &&& 65534 ||| c
        = s * 65536 + (t &&& 65534) + c)
    ∧ (s * 65536 % 18446744073709551616 ||| t &&& 65534 ||| c) / 65536 = s
    ∧ ((s * 65536 % 18446744073709551616 ||| t &&& 65534 ||| c) / 2) &&& 32767
        = t / 2
    ∧ (s * 65536 % 18446744073709551616 ||| t &&& 65534 ||| c) % 2 = c := by
  have hmod : s * 65536 % 18446744073709551616 = s * 65536 :=
    Nat.mod_eq_of_lt (by omega)
  rw [hmod]
  have hT16 : t &&& 65534 < 65536 :=
    Nat.and_lt_two_pow t (show 65534 < 2 ^ 16 by norm_num)
  have hTeven : (t &&& 65534) % 2 = 0 := by
    have h1 : ¬ ((t &&& 65534) % 2 = 1) := by
      rw [Nat.and_mod_two_eq_one]
      simp
    omega
  have hsec : (s * 65536 ||| t &&& 65534 ||| c) / 65536 = s := by
    have h216 : (65536 : Nat) = 2 ^ 16 := by norm_num
    rw [h216, or_div_two_pow, or_div_two_pow, ← h216]
    rw [Nat.mul_div_cancel s (by norm_num : (0:Nat) < 65536)]
    rw [Nat.div_eq_of_lt hT16, Nat.div_eq_of_lt (by omega)]
    simp
  have hmod2 : (s * 65536 ||| t &&& 65534 ||| c) % 2 = c := by
    have hX2 : s * 65536 % 2 = 0 := by omega
    rcases Nat.mod_two_eq_zero_or_one (s * 65536 ||| t &&& 65534 ||| c) with h | h
    · interval_cases c
      · exact h
      · exfalso
        have h1 : (s * 65536 ||| t &&& 65534 ||| 1) % 2 = 1 := by
          rw [Nat.or_mod_two_eq_one]
          right
          norm_num
        omega
    · rw [h]
      rw [Nat.or_mod_two_eq_one, Nat.or_mod_two_eq_one] at h
      rcases h with (h | h) | h <;> omega
  refine ⟨?_, hsec, ?_, hmod2⟩
  · have hmask : ∀ x : Nat, x % 65536 = x &&& 65535 := by
      intro x
      rw [show (65535 : Nat) = 2 ^ 16 - 1 by norm_num, Nat.and_pow_two_sub_one_eq_mod]
    have hlow : (s * 65536 ||| t &&& 65534 ||| c) % 65536 = (t &&& 65534) + c := by
      rw [hmask, Nat.and_distrib_right, Nat.and_distrib_right]
      rw [← hmask, ← hmask, ← hmask]
      rw [Nat.mul_mod_left]
      rw [Nat.mod_eq_of_lt hT16, Nat.mod_eq_of_lt (by omega : c < 65536)]
      rw [Nat.zero_or]
      interval_cases c
      · simp
      · exact or_one_of_even _ hTeven
    have hdm := Nat.div_add_mod (s * 65536 ||| t &&& 65534 ||| c) 65536
    rw [hsec, hlow] at hdm
    omega
  · have hX2 : s * 65536 = s * 32768 * 2 := by ring
    rw [Nat.or_div_two, Nat.or_div_two]
    rw [hX2, Nat.mul_div_cancel _ (by norm_num : (0:Nat) < 2), Nat.and_div_two]
    rw [show (65534 : Nat) / 2 = 32767 by norm_num]
    rw [Nat.div_eq_of_lt (by omega : c < 2), Nat.or_zero]
    rw [Nat.and_distrib_right]
    have hmask15 : ∀ x : Nat, x &&& 32767 = x % 32768 := by
      intro x
      rw [show (32767 : Nat) = 2 ^ 15 - 1 by norm_num, Nat.and_pow_two_sub_one_eq_mod]
    rw [hmask15 (s * 32768), Nat.mul_mod_left]
    rw [Nat.and_assoc, show (32767 : Nat) &&& 32767 = 32767 from rfl]
    rw [hmask15 (t / 2), Nat.mod_eq_of_lt (by omega)]
    simp

/-- C9 (amended) — `Timestamp::from((seconds, ticks, Authoritative(a)))` packs
`(seconds << 16) | (ticks & 0xfffe) | (if a then 1 else 0)` — the ticks field
is masked with `0xfffe`, not shifted left by one — equivalently the sum
`seconds * 2^16 + (ticks & 0xfffe) + flag`; `seconds()` recovers `seconds`
(when below `2^48`), `ticks()` recovers `ticks / 2` (the stored ticks with
their low bit dropped, as the crate's own unit test asserts), and
`is_authoritative()` recovers the flag. -/
theorem timestamp_packing (s t : Nat) (a : Bool) (hs : s < 281474976710656)
    (ht : t < 65536) :
    timestampFromParts s t a = s * 65536 + (t &&& 65534) + (if a then 1 else 0)
    ∧ timestampSeconds (timestampFromParts s t a) = s
    ∧ timestampTicks (timestampFromParts s t a) = t / 2
    ∧ timestampIsAuthoritative (timestampFromParts s t a) = a := by
  obtain ⟨h1, h2, h3, h4⟩ :=
    timestamp_pack_core s t (if a then 1 else 0) hs ht (by cases a <;> simp)
  refine ⟨h1, h2, h3, ?_⟩
  simp only [timestampIsAuthoritative, timestampFromParts, Nat.and_one_is_mod]
  simp only [h4]
  cases a <;> simp

/-- C9 witness — the crate's own unit-test input
`(0x12345678, 0x9abc, Authoritative(true))`. -/
theorem timestamp_packing_witness :
    timestampFromParts 305419896 39612 true
      = 305419896 * 65536 + (39612 &&& 65534) + (if true then 1 else 0)
    ∧ timestampSeconds (timestampFromParts 305419896 39612 true) = 305419896
    ∧ timestampTicks (timestampFromParts 305419896 39612 true) = 39612 / 2
    ∧ timestampIsAuthoritative (timestampFromParts 305419896 39612 true) = true :=
  timestamp_packing 305419896 39612 true (by decide) (by decide)

/-- C9 counterexample — at `(seconds, ticks, auth) = (0, 1, false)` the code
packs `0`, not `(0 << 16) | (1 << 1) | 0 = 2` as the claim's formula says, and
`ticks()` returns `0`, failing to recover the input ticks value `1`. -/
theorem timestamp_packing_cex :
    timestampFromParts 0 1 false ≠ 0 * 65536 + 1 * 2 + 0
    ∧ timestampTicks (timestampFromParts 0 1 false) ≠ 1 := by
  decide

/-! ## Panic reachability, array decoding, length-field rule -/

/-- C2 — concrete panic witnesses in the codec: `write_tlv` into a 1-byte
destination underflows `original_remaining - 1 - 1` when computing the
available space; `len()` reads past the end of the buffer when a trailing
record's length field is truncated (`[01 01 AA 05]`: the record at offset 3
has a type byte but no length byte); `len()` overflows the `u8` addition
`(start_len + 2) as u16` on a length byte of `0xFE`; and `len()` reads past
the end when exactly one zero padding byte follows the records
(`[01 01 AA 00]`), a state reachable by pushing a 1-byte value into an empty
4-byte collection. -/
theorem codec_panic_paths :
    writeTlvBytes [0] 1 [] = none
    ∧ findBufferLen [1, 1, 170, 5] = none
    ∧ findBufferLen [1, 254, 0, 0] = none
    ∧ findBufferLen [1, 1, 170, 0] = none
    ∧ pushBytes (List.replicate 4 0) 1 [170] =
        some ([1, 1, 170, 0], .ok 3) := by
  decide

theorem set_len_append (pre : List Nat) (b x : Nat) (suf : List Nat) :
    (pre ++ x :: suf).set pre.length b = pre ++ b :: suf := by
  induction pre with
  | nil => simp
  | cons a pre ih => simp [ih]

theorem arrayFill_append (input : List Nat) : ∀ pre suf : List Nat,
    input.length ≤ suf.length →
    arrayFill (pre ++ suf) pre.length input =
      some (pre ++ input ++ suf.drop input.length) := by
  induction input with
  | nil => intro pre suf _; simp [arrayFill]
  | cons b rest ih =>
    intro pre suf h
    cases suf with
    | nil => simp at h
    | cons s0 suf =>
      simp only [arrayFill]
      rw [if_pos (by simp)]
      rw [set_len_append pre b s0 suf]
      rw [show pre ++ b :: suf = (pre ++ [b]) ++ suf by simp]
      rw [show pre.length + 1 = (pre ++ [b]).length by simp]
      rw [ih (pre ++ [b]) suf (by simp at h ⊢; omega)]
      simp

/-- C10 — the unchecked array value decoder zero-pads: for a value buffer no
longer than the target array size, it returns the buffer's bytes followed by
zeros, rather than rejecting the short input. -/
theorem array_decoder_zero_pads (n : Nat) (buffer : List Nat)
    (h : buffer.length ≤ n) :
    decodeTlvValueUncheckedArray n buffer =
      some (buffer ++ List.replicate (n - buffer.length) 0) := by
  have h0 : arrayFill (([] : List Nat) ++ List.replicate n 0) (List.length ([] : List Nat)) buffer =
      some (([] : List Nat) ++ buffer ++ (List.replicate n 0).drop buffer.length) :=
    arrayFill_append buffer [] (List.replicate n 0) (by simp [h])
  simp only [List.nil_append, List.length_nil] at h0
  rw [decodeTlvValueUncheckedArray, h0, List.drop_replicate]

/-- C10 witness — a 2-byte buffer decoded into a 4-byte array yields the two
bytes followed by two zeros. -/
theorem array_decoder_zero_pads_witness :
    decodeTlvValueUncheckedArray 4 [7, 8] =
      some ([7, 8] ++ List.replicate (4 - ([7, 8] : List Nat).length) 0) :=
  array_decoder_zero_pads 4 [7, 8] (by decide)

/-- C3 — the length-field encoding rule: a length of 254 is written as the
single byte `0xFE` (both by `PutTlvLength` and by `write_tlv`, whose record
for a 254-byte value has a 2-byte header); a length of 255 or more is written
as the marker `0xFF` followed by the length as a big-endian `u16`; and the
complete record of a 256-byte value occupies exactly 260 bytes
(type byte + 3 length bytes + 256 value bytes). -/
theorem length_field_encoding_rule :
    (∀ (d : List Nat) (r : Nat) (rest : List Nat),
      putTlvLength 254 ⟨d, r :: rest⟩ = some ⟨d ++ [254], rest⟩)
    ∧ (∀ (n : Nat) (d : List Nat) (r1 r2 r3 : Nat) (rest : List Nat),
      255 ≤ n → n ≤ 65535 →
      putTlvLength n ⟨d, r1 :: r2 :: r3 :: rest⟩ =
        some ⟨d ++ [255, n / 256, n % 256], rest⟩)
    ∧ (∀ (buffer : List Nat) (t : Nat) (vs : List Nat),
      vs.length = 254 → 256 ≤ buffer.length →
      writeTlvBytes buffer t vs =
        some (t :: 254 :: (vs ++ buffer.drop 256), .ok 256))
    ∧ (∀ (buffer : List Nat) (t : Nat) (vs : List Nat),
      vs.length = 256 → 260 ≤ buffer.length →
      writeTlvBytes buffer t vs =
        some (t :: 255 :: 1 :: 0 :: (vs ++ buffer.drop 260), .ok 260)) := by
  refine ⟨?_, ?_, ?_, ?_⟩
  · intro d r rest
    simp [putTlvLength, putU8]
  · intro n d r1 r2 r3 rest h255 h65
    have hmod : n % 65536 = n := Nat.mod_eq_of_lt (by omega)
    simp only [putTlvLength, putU8, putU16]
    rw [if_neg (by omega)]
    simp [hmod]
  · intro buffer t vs h254 hlen
    have h := writeTlvBytes_ok_std buffer t vs (by omega) (by omega)
    rw [h254] at h
    exact h
  · intro buffer t vs h256 hlen
    have h := writeTlvBytes_ok_ext buffer t vs (by omega) (by omega) (by omega)
    rw [h256] at h
    norm_num at h
    exact h

set_option maxRecDepth 4000 in
/-- C3 witness — concrete instantiations of all four conjuncts. -/
theorem length_field_encoding_rule_witness :
    putTlvLength 254 ⟨[], [9, 9]⟩ = some ⟨[] ++ [254], [9]⟩
    ∧ putTlvLength 256 ⟨[], [9, 9, 9, 9]⟩ =
        some ⟨[] ++ [255, 256 / 256, 256 % 256], [9]⟩
    ∧ writeTlvBytes (List.replicate 256 0) 7 (List.replicate 254 5) =
        some (7 :: 254 :: (List.replicate 254 5 ++ (List.replicate 256 0).drop 256),
          .ok 256)
    ∧ writeTlvBytes (List.replicate 260 0) 7 (List.replicate 256 5) =
        some (7 :: 255 :: 1 :: 0 :: (List.replicate 256 5 ++ (List.replicate 260 0).drop 260),
          .ok 260) :=
  ⟨length_field_encoding_rule.1 [] 9 [9],
   length_field_encoding_rule.2.1 256 [] 9 9 9 [9] (by decide) (by decide),
   length_field_encoding_rule.2.2.1 (List.replicate 256 0) 7 (List.replicate 254 5)
     (by simp) (by simp),
   length_field_encoding_rule.2.2.2 (List.replicate 260 0) 7 (List.replicate 256 5)
     (by simp) (by simp)⟩

/-! ## Encode/decode round trips -/

theorem channelTryEncodeTlv_ok (buffer : List Nat) (ch pg : Nat)
    (hlen : 5 ≤ buffer.length) :
    channelTryEncodeTlv buffer ⟨ch, pg⟩ =
      some (0 :: 3 :: pg :: (ch % 65536 / 256) :: (ch % 256) :: buffer.drop 5,
        .ok 5) := by
  obtain ⟨a, b, c, d, e, rest, rfl⟩ :
      ∃ a b c d e rest, buffer = a :: b :: c :: d :: e :: rest := by
    cases buffer with
    | nil => simp at hlen
    | cons a tl =>
      cases tl with
      | nil => simp at hlen
      | cons b tl2 =>
        cases tl2 with
        | nil => simp at hlen
        | cons c tl3 =>
          cases tl3 with
          | nil => simp at hlen
          | cons d tl4 =>
            cases tl4 with
            | nil => simp at hlen
            | cons e rest => exact ⟨a, b, c, d, e, rest, rfl⟩
  have c3 : ¬ ((a :: b :: c :: d :: e :: rest).length < 1 + 1) := by
    simp only [List.length_cons]; omega
  have c4 : ¬ (3 > (a :: b :: c :: d :: e :: rest).length - 1 - 1) := by
    simp only [List.length_cons]; omega
  simp only [channelTryEncodeTlv, writeTlv, channelTryEncodeTlvValue, putU8, putU16,
    c3, c4, if_false, List.length_cons, List.nil_append, List.cons_append,
    List.append_assoc]
  simp

/-- C4 — encode/decode round trip.  For the `Channel` domain type: encoding
with `try_encode_tlv` into a sufficiently large buffer and decoding the result
with `decode_tlv_unchecked` recovers the value.  Generically, for any
byte-array value (standard or extended length): encoding with `write_tlv` and
decoding the produced record with the derive-generated
`decode_tlv_unchecked` over the `[u8; N]` value decoder recovers the value
bytes. -/
theorem tlv_encode_decode_roundtrip :
    (∀ (buffer : List Nat) (ch pg : Nat), ch < 65536 → 5 ≤ buffer.length →
      ∃ nb, channelTryEncodeTlv buffer ⟨ch, pg⟩ = some (nb, .ok 5)
        ∧ channelDecodeTlvUnchecked nb = some ⟨ch, pg⟩)
    ∧ (∀ (t : Nat) (vs buffer : List Nat), vs.length < 255 →
        2 + vs.length ≤ buffer.length →
        ∃ nb, writeTlvBytes buffer t vs = some (nb, .ok (2 + vs.length))
          ∧ decodeTlvUnchecked (decodeTlvValueUncheckedArray vs.length)
              (nb.take (2 + vs.length)) = some vs)
    ∧ (∀ (t : Nat) (vs buffer : List Nat), 255 ≤ vs.length → vs.length ≤ 65535 →
        4 + vs.length ≤ buffer.length →
        ∃ nb, writeTlvBytes buffer t vs = some (nb, .ok (4 + vs.length))
          ∧ decodeTlvUnchecked (decodeTlvValueUncheckedArray vs.length)
              (nb.take (4 + vs.length)) = some vs) := by
  have harr : ∀ vs : List Nat,
      decodeTlvValueUncheckedArray vs.length vs = some vs := by
    intro vs
    have h0 := arrayFill_append vs [] (List.replicate vs.length 0) (by simp)
    simp only [List.nil_append, List.length_nil] at h0
    rw [decodeTlvValueUncheckedArray, h0, List.drop_replicate]
    simp
  refine ⟨?_, ?_, ?_⟩
  · intro buffer ch pg hch hlen
    refine ⟨_, channelTryEncodeTlv_ok buffer ch pg hlen, ?_⟩
    have hmod : ch % 65536 = ch := Nat.mod_eq_of_lt hch
    simp only [channelDecodeTlvUnchecked, decodeTlvUnchecked,
      channelDecodeTlvValueUnchecked, getU8, getTlvLength, getU16, hmod]
    norm_num
    omega
  · intro t vs buffer hstd hfit
    refine ⟨_, writeTlvBytes_ok_std buffer t vs hstd hfit, ?_⟩
    have htake : (t :: vs.length :: (vs ++ buffer.drop (2 + vs.length))).take
        (2 + vs.length) = t :: vs.length :: vs := by
      rw [show 2 + vs.length = vs.length + 1 + 1 by omega]
      simp only [List.take_succ_cons]
      rw [List.take_left]
    rw [htake]
    simp only [decodeTlvUnchecked, getU8, getTlvLength]
    rw [if_neg (by omega)]
    exact harr vs
  · intro t vs buffer hge h65 hfit
    refine ⟨_, writeTlvBytes_ok_ext buffer t vs hge h65 hfit, ?_⟩
    have htake : (t :: 255 :: vs.length / 256 :: vs.length % 256 ::
        (vs ++ buffer.drop (4 + vs.length))).take (4 + vs.length)
        = t :: 255 :: vs.length / 256 :: vs.length % 256 :: vs := by
      rw [show 4 + vs.length = vs.length + 1 + 1 + 1 + 1 by omega]
      simp only [List.take_succ_cons]
      rw [List.take_left]
    rw [htake]
    simp only [decodeTlvUnchecked, getU8, getTlvLength, getU16]
    simp only [if_true]
    exact harr vs

set_option maxRecDepth 4000 in
/-- C4 witness — the crate's own Channel test vector (page 0, channel 22,
encoded `00 03 00 00 16`), a 4-byte standard-length value, and a 256-byte
extended-length value. -/
theorem tlv_encode_decode_roundtrip_witness :
    (∃ nb, channelTryEncodeTlv (List.replicate 10 0) ⟨22, 0⟩ = some (nb, .ok 5)
      ∧ channelDecodeTlvUnchecked nb = some ⟨22, 0⟩)
    ∧ (∃ nb, writeTlvBytes (List.replicate 16 0) 1 [170, 187, 204, 221] =
        some (nb, .ok (2 + ([170, 187, 204, 221] : List Nat).length))
      ∧ decodeTlvUnchecked
          (decodeTlvValueUncheckedArray ([170, 187, 204, 221] : List Nat).length)
          (nb.take (2 + ([170, 187, 204, 221] : List Nat).length))
          = some [170, 187, 204, 221])
    ∧ (∃ nb, writeTlvBytes (List.replicate 260 0) 7 (List.replicate 256 5) =
        some (nb, .ok (4 + (List.replicate 256 5).length))
      ∧ decodeTlvUnchecked
          (decodeTlvValueUncheckedArray (List.replicate 256 5).length)
          (nb.take (4 + (List.replicate 256 5).length))
          = some (List.replicate 256 5)) :=
  ⟨tlv_encode_decode_roundtrip.1 (List.replicate 10 0) 22 0 (by decide) (by simp),
   tlv_encode_decode_roundtrip.2.1 1 [170, 187, 204, 221] (List.replicate 16 0)
     (by decide) (by simp),
   tlv_encode_decode_roundtrip.2.2 7 (List.replicate 256 5) (List.replicate 260 0)
     (by simp) (by simp) (by simp)⟩

/-! ## Well-formed record sequences -/

theorem encodeRecords_nil : encodeRecords [] = [] := rfl

theorem encodeRecords_cons (r : TlvRec) (rs : List TlvRec) :
    encodeRecords (r :: rs) = encodeRecord r ++ encodeRecords rs := rfl

theorem encodeRecords_append (xs ys : List TlvRec) :
    encodeRecords (xs ++ ys) = encodeRecords xs ++ encodeRecords ys := by
  induction xs with
  | nil => simp [encodeRecords_nil, List.nil_append]
  | cons x xs ih =>
    simp only [List.cons_append, encodeRecords_cons, ih, List.append_assoc]

theorem encodeRecord_length (r : TlvRec) :
    (encodeRecord r).length = tlvTotalLen r.value.length := by
  simp only [encodeRecord, encodeTlvLength, tlvTotalLen]
  split <;> simp <;> omega

theorem tlvTotalLen_ge (len : Nat) (h : 1 ≤ len) : 3 ≤ tlvTotalLen len := by
  simp only [tlvTotalLen]
  split <;> omega

theorem peekTlvLen_record (r : TlvRec) (rest : List Nat)
    (h65 : r.value.length ≤ 65535) :
    peekTlvLen (encodeRecord r ++ rest) = some r.value.length := by
  by_cases h : r.value.length < 255
  · have hne : r.value.length ≠ 255 := by omega
    simp [encodeRecord, encodeTlvLength, peekTlvLen, getU8, getTlvLength, h, hne]
  · have hmod : r.value.length % 65536 = r.value.length := Nat.mod_eq_of_lt (by omega)
    have hcomb : r.value.length / 256 * 256 + r.value.length % 256 = r.value.length := by
      omega
    simp only [encodeRecord, encodeTlvLength, if_neg h, peekTlvLen, getU8,
      getTlvLength, getU16, List.cons_append, hmod]
    simp [hcomb]

theorem nextTlvPosition_record (r : TlvRec) (rest : List Nat) (hwf : WFRec r) :
    nextTlvPosition (encodeRecord r ++ rest) = some (tlvTotalLen r.value.length) := by
  obtain ⟨h1, h65, h254, -⟩ := hwf
  by_cases h : r.value.length < 255
  · have hne : r.value.length ≠ 255 := by omega
    have hle : r.value.length + 2 ≤ 255 := by omega
    simp only [encodeRecord, encodeTlvLength, if_pos h, nextTlvPosition, getU8,
      getU16, List.cons_append, tlvTotalLen]
    simp [hne, hle]
  · have hmod : r.value.length % 65536 = r.value.length := Nat.mod_eq_of_lt (by omega)
    have hcomb : r.value.length / 256 * 256 + r.value.length % 256 = r.value.length := by
      omega
    have hle : r.value.length + 4 ≤ 65535 := by omega
    simp only [encodeRecord, encodeTlvLength, if_neg h, nextTlvPosition, getU8,
      getU16, List.cons_append, tlvTotalLen, hmod]
    simp [hcomb, hle]

theorem drop_record (r : TlvRec) (rest : List Nat) :
    (encodeRecord r ++ rest).drop (tlvTotalLen r.value.length) = rest := by
  rw [← encodeRecord_length r]
  exact List.drop_left _ _

theorem replicate_two_cons (pad : Nat) (h : 2 ≤ pad) :
    List.replicate pad (0 : Nat) = 0 :: 0 :: List.replicate (pad - 2) 0 := by
  rw [show pad = (pad - 2) + 1 + 1 by omega]
  simp [List.replicate_succ]

theorem peekTlvLen_zeros (pad : Nat) (h : 2 ≤ pad) (rest : List Nat) :
    peekTlvLen (List.replicate pad 0 ++ rest) = some 0 := by
  rw [replicate_two_cons pad h]
  simp [peekTlvLen, getU8, getTlvLength]

theorem findBufferLenAux_records (rs : List TlvRec) :
    ∀ (buffer : List Nat) (cursor fuel pad : Nat),
      (∀ r ∈ rs, WFRec r) →
      buffer.drop cursor = encodeRecords rs ++ List.replicate pad 0 →
      buffer.length = cursor + (encodeRecords rs).length + pad →
      (pad = 0 ∨ 2 ≤ pad) →
      buffer.length - cursor ≤ fuel →
      findBufferLenAux buffer cursor fuel = some (cursor + (encodeRecords rs).length) := by
  induction rs with
  | nil =>
    intro buffer cursor fuel pad _ hdrop hlen hpad hfuel
    simp only [encodeRecords_nil, List.length_nil, List.nil_append] at hdrop hlen ⊢
    rcases hpad with hp0 | hp2
    · subst hp0
      cases fuel with
      | zero =>
        simp only [findBufferLenAux]
        rw [if_neg (by omega)]
        exact congrArg some (by omega)
      | succ f =>
        simp only [findBufferLenAux]
        rw [if_neg (by omega)]
        exact congrArg some (by omega)
    · cases fuel with
      | zero => omega
      | succ f =>
        simp only [findBufferLenAux]
        rw [if_pos (by omega), hdrop]
        rw [show List.replicate pad (0:Nat) = List.replicate pad 0 ++ [] by simp]
        rw [peekTlvLen_zeros pad hp2 []]
        simp
  | cons r rs ih =>
    intro buffer cursor fuel pad hwf hdrop hlen hpad hfuel
    have hwfr : WFRec r := hwf r (by simp)
    have h1 : 1 ≤ r.value.length := hwfr.1
    have h65 : r.value.length ≤ 65531 := hwfr.2.1
    have httl : 3 ≤ tlvTotalLen r.value.length := tlvTotalLen_ge _ h1
    have hrlen : (encodeRecord r).length = tlvTotalLen r.value.length :=
      encodeRecord_length r
    have hlen_cons : (encodeRecords (r :: rs)).length
        = (encodeRecord r).length + (encodeRecords rs).length := by
      rw [encodeRecords_cons]
      simp
    have hcur : cursor < buffer.length := by omega
    cases fuel with
    | zero => omega
    | succ f =>
      simp only [findBufferLenAux]
      rw [if_pos hcur]
      rw [encodeRecords_cons] at hdrop
      rw [List.append_assoc] at hdrop
      rw [hdrop]
      rw [peekTlvLen_record r _ (by omega)]
      obtain ⟨k, hk⟩ : ∃ k, r.value.length = k + 1 := ⟨r.value.length - 1, by omega⟩
      rw [hk]
      rw [nextTlvPosition_record r _ hwfr]
      have hnext := ih buffer (cursor + tlvTotalLen r.value.length) f pad
        (fun x hx => hwf x (by simp [hx]))
        (by
          have hd2 : buffer.drop (cursor + tlvTotalLen r.value.length)
              = (buffer.drop cursor).drop (tlvTotalLen r.value.length) := by
            rw [List.drop_drop]
          rw [hd2, hdrop, drop_record])
        (by omega)
        hpad
        (by omega)
      show findBufferLenAux buffer (cursor + tlvTotalLen r.value.length) f
        = some (cursor + (encodeRecords (r :: rs)).length)
      rw [hnext]
      exact congrArg some (by omega)

theorem findBufferLen_records (rs : List TlvRec) (pad : Nat)
    (hwf : ∀ r ∈ rs, WFRec r) (hpad : pad = 0 ∨ 2 ≤ pad) :
    findBufferLen (encodeRecords rs ++ List.replicate pad 0)
      = some (encodeRecords rs).length := by
  have h := findBufferLenAux_records rs (encodeRecords rs ++ List.replicate pad 0)
    0 (encodeRecords rs ++ List.replicate pad 0).length pad hwf (by simp)
    (by simp) hpad (by omega)
  simpa [findBufferLen] using h

theorem logicalLenSpecAux_records (rs : List TlvRec) :
    ∀ (buffer : List Nat) (cursor fuel pad : Nat),
      (∀ r ∈ rs, WFRec r) →
      buffer.drop cursor = encodeRecords rs ++ List.replicate pad 0 →
      buffer.length = cursor + (encodeRecords rs).length + pad →
      (pad = 0 ∨ 2 ≤ pad) →
      buffer.length - cursor ≤ fuel →
      logicalLenSpecAux buffer cursor fuel = some (cursor + (encodeRecords rs).length) := by
  induction rs with
  | nil =>
    intro buffer cursor fuel pad _ hdrop hlen hpad hfuel
    simp only [encodeRecords_nil, List.length_nil, List.nil_append] at hdrop hlen ⊢
    rcases hpad with hp0 | hp2
    · subst hp0
      cases fuel with
      | zero =>
        simp only [logicalLenSpecAux]
        rw [if_neg (by omega)]
        exact congrArg some (by omega)
      | succ f =>
        simp only [logicalLenSpecAux]
        rw [if_neg (by omega)]
        exact congrArg some (by omega)
    · cases fuel with
      | zero => omega
      | succ f =>
        simp only [logicalLenSpecAux]
        rw [if_pos (by omega), hdrop]
        rw [show List.replicate pad (0:Nat) = List.replicate pad 0 ++ [] by simp]
        rw [peekTlvLen_zeros pad hp2 []]
        simp
  | cons r rs ih =>
    intro buffer cursor fuel pad hwf hdrop hlen hpad hfuel
    have hwfr : WFRec r := hwf r (by simp)
    have h1 : 1 ≤ r.value.length := hwfr.1
    have h65 : r.value.length ≤ 65531 := hwfr.2.1
    have httl : 3 ≤ tlvTotalLen r.value.length := tlvTotalLen_ge _ h1
    have hrlen : (encodeRecord r).length = tlvTotalLen r.value.length :=
      encodeRecord_length r
    have hlen_cons : (encodeRecords (r :: rs)).length
        = (encodeRecord r).length + (encodeRecords rs).length := by
      rw [encodeRecords_cons]
      simp
    have hcur : cursor < buffer.length := by omega
    cases fuel with
    | zero => omega
    | succ f =>
      simp only [logicalLenSpecAux]
      rw [if_pos hcur]
      rw [encodeRecords_cons] at hdrop
      rw [List.append_assoc] at hdrop
      rw [hdrop]
      rw [peekTlvLen_record r _ (by omega)]
      obtain ⟨k, hk⟩ : ∃ k, r.value.length = k + 1 := ⟨r.value.length - 1, by omega⟩
      rw [hk] at httl hrlen
      rw [hk]
      have hnext := ih buffer (cursor + tlvTotalLen (k + 1)) f pad
        (fun x hx => hwf x (by simp [hx]))
        (by
          have hd2 : buffer.drop (cursor + tlvTotalLen (k + 1))
              = (buffer.drop cursor).drop (tlvTotalLen (k + 1)) := by
            rw [List.drop_drop]
          rw [hd2, hdrop, ← hk, drop_record])
        (by omega)
        hpad
        (by omega)
      show logicalLenSpecAux buffer (cursor + tlvTotalLen (k + 1)) f
        = some (cursor + (encodeRecords (r :: rs)).length)
      rw [hnext]
      exact congrArg some (by omega)

theorem logicalLenSpec_records (rs : List TlvRec) (pad : Nat)
    (hwf : ∀ r ∈ rs, WFRec r) (hpad : pad = 0 ∨ 2 ≤ pad) :
    logicalLenSpec (encodeRecords rs ++ List.replicate pad 0)
      = some (encodeRecords rs).length := by
  have h := logicalLenSpecAux_records rs (encodeRecords rs ++ List.replicate pad 0)
    0 (encodeRecords rs ++ List.replicate pad 0).length pad hwf (by simp)
    (by simp) hpad (by omega)
  simpa [logicalLenSpec] using h

/-- C8 (amended) — on a well-formed collection (back-to-back records with
nonzero value lengths, standard length bytes at most `0xFD` or extended
lengths at most `0xFFFB`, followed by zero padding of length 0 or at least 2),
`len()` agrees with the spec's scan (stop at the first zero length field,
else stop at Capacity), and both equal the records' total encoded size. -/
theorem logical_len_refines_spec_scan (rs : List TlvRec) (pad : Nat)
    (hwf : ∀ r ∈ rs, WFRec r) (hpad : pad = 0 ∨ 2 ≤ pad) :
    findBufferLen (encodeRecords rs ++ List.replicate pad 0)
      = logicalLenSpec (encodeRecords rs ++ List.replicate pad 0)
    ∧ findBufferLen (encodeRecords rs ++ List.replicate pad 0)
      = some (encodeRecords rs).length := by
  rw [findBufferLen_records rs pad hwf hpad, logicalLenSpec_records rs pad hwf hpad]
  exact ⟨rfl, rfl⟩

/-- C8 witness — two records (4 + 3 bytes) and 4 bytes of zero padding. -/
theorem logical_len_refines_spec_scan_witness :
    (findBufferLen (encodeRecords [⟨1, [170, 187]⟩, ⟨3, [9]⟩] ++ List.replicate 4 0)
      = logicalLenSpec (encodeRecords [⟨1, [170, 187]⟩, ⟨3, [9]⟩] ++ List.replicate 4 0))
    ∧ findBufferLen (encodeRecords [⟨1, [170, 187]⟩, ⟨3, [9]⟩] ++ List.replicate 4 0)
      = some (encodeRecords [⟨1, [170, 187]⟩, ⟨3, [9]⟩]).length :=
  logical_len_refines_spec_scan [⟨1, [170, 187]⟩, ⟨3, [9]⟩] 4 (by simp [WFRec]) (by omega)

/-- C8 counterexample — on the 4-byte buffer `[01 FE 00 00]` the spec's scan
skips the claimed 254-byte record, passes Capacity and returns 4, but the
code's `len()` panics: `(0xFE + 2) as u16` overflows the `u8` addition. -/
theorem logical_len_spec_scan_cex :
    findBufferLen [1, 254, 0, 0] = none
    ∧ logicalLenSpec [1, 254, 0, 0] = some 4
    ∧ findBufferLen [1, 254, 0, 0] ≠ logicalLenSpec [1, 254, 0, 0] := by
  decide

theorem findTlvWithTypeAux_found (as : List TlvRec) :
    ∀ (r : TlvRec) (tail buffer : List Nat) (limit cursor fuel ty : Nat),
      (∀ a ∈ as, WFRec a) → WFRec r →
      (∀ a ∈ as, a.t ≠ ty) → r.t = ty →
      buffer.drop cursor = encodeRecords as ++ encodeRecord r ++ tail →
      cursor + (encodeRecords as).length + (encodeRecord r).length ≤ limit →
      limit - cursor ≤ fuel →
      findTlvWithTypeAux ty buffer limit cursor fuel =
        some (some (cursor + (encodeRecords as).length,
          cursor + (encodeRecords as).length + (encodeRecord r).length)) := by
  induction as with
  | nil =>
    intro r tail buffer limit cursor fuel ty _ hwfr _ hrty hdrop hlim hfuel
    simp only [encodeRecords_nil, List.length_nil, List.nil_append] at hdrop hlim ⊢
    have h1 : 1 ≤ r.value.length := hwfr.1
    have h65 : r.value.length ≤ 65531 := hwfr.2.1
    have httl : 3 ≤ tlvTotalLen r.value.length := tlvTotalLen_ge _ h1
    have hrlen : (encodeRecord r).length = tlvTotalLen r.value.length :=
      encodeRecord_length r
    have hcur : cursor < limit := by omega
    cases fuel with
    | zero => omega
    | succ f =>
      simp only [findTlvWithTypeAux]
      rw [if_pos hcur]
      rw [hdrop]
      rw [nextTlvPosition_record r tail hwfr]
      rw [peekTlvLen_record r tail (by omega)]
      obtain ⟨k, hk⟩ : ∃ k, r.value.length = k + 1 := ⟨r.value.length - 1, by omega⟩
      rw [hk] at hrlen ⊢
      have hcons : encodeRecord r ++ tail
          = r.t :: (encodeTlvLength (k + 1) ++ r.value ++ tail) := by
        simp [encodeRecord, hk]
      rw [hcons]
      simp only []
      rw [if_pos hrty]
      simp only [Option.some.injEq, Prod.mk.injEq]
      omega
  | cons a as ih =>
    intro r tail buffer limit cursor fuel ty hwf hwfr hne hrty hdrop hlim hfuel
    have hwfa : WFRec a := hwf a (by simp)
    have h1 : 1 ≤ a.value.length := hwfa.1
    have httl : 3 ≤ tlvTotalLen a.value.length := tlvTotalLen_ge _ h1
    have halen : (encodeRecord a).length = tlvTotalLen a.value.length :=
      encodeRecord_length a
    have hlen_cons : (encodeRecords (a :: as)).length
        = (encodeRecord a).length + (encodeRecords as).length := by
      rw [encodeRecords_cons]
      simp
    have hcur : cursor < limit := by
      have h3 : 3 ≤ (encodeRecord r).length := by
        rw [encodeRecord_length r]
        exact tlvTotalLen_ge _ hwfr.1
      omega
    cases fuel with
    | zero => omega
    | succ f =>
      simp only [findTlvWithTypeAux]
      rw [if_pos hcur]
      rw [encodeRecords_cons] at hdrop
      rw [List.append_assoc, List.append_assoc] at hdrop
      rw [hdrop]
      rw [nextTlvPosition_record a _ hwfa]
      have hcons : encodeRecord a ++ (encodeRecords as ++ (encodeRecord r ++ tail))
          = a.t :: (encodeTlvLength a.value.length ++ a.value
              ++ (encodeRecords as ++ (encodeRecord r ++ tail))) := by
        simp [encodeRecord]
      rw [hcons]
      simp only []
      rw [if_neg (hne a (by simp))]
      have hrec := ih r tail buffer limit (cursor + tlvTotalLen a.value.length) f ty
        (fun x hx => hwf x (by simp [hx]))
        hwfr
        (fun x hx => hne x (by simp [hx]))
        hrty
        (by
          have hd2 : buffer.drop (cursor + tlvTotalLen a.value.length)
              = (buffer.drop cursor).drop (tlvTotalLen a.value.length) := by
            rw [List.drop_drop]
          rw [hd2, hdrop, drop_record]
          rw [List.append_assoc])
        (by omega)
        (by omega)
      rw [hrec]
      simp only [Option.some.injEq, Prod.mk.injEq]
      omega

theorem findTlvWithTypeAux_none (rs : List TlvRec) :
    ∀ (tail buffer : List Nat) (limit cursor fuel ty : Nat),
      (∀ r ∈ rs, WFRec r) →
      (∀ r ∈ rs, r.t ≠ ty) →
      buffer.drop cursor = encodeRecords rs ++ tail →
      limit = cursor + (encodeRecords rs).length →
      limit - cursor ≤ fuel →
      findTlvWithTypeAux ty buffer limit cursor fuel = some none := by
  induction rs with
  | nil =>
    intro tail buffer limit cursor fuel ty _ _ _ hlim _
    simp only [encodeRecords_nil, List.length_nil] at hlim
    cases fuel with
    | zero =>
      simp only [findTlvWithTypeAux]
      rw [if_neg (by omega)]
    | succ f =>
      simp only [findTlvWithTypeAux]
      rw [if_neg (by omega)]
  | cons a as ih =>
    intro tail buffer limit cursor fuel ty hwf hne hdrop hlim hfuel
    have hwfa : WFRec a := hwf a (by simp)
    have h1 : 1 ≤ a.value.length := hwfa.1
    have httl : 3 ≤ tlvTotalLen a.value.length := tlvTotalLen_ge _ h1
    have halen : (encodeRecord a).length = tlvTotalLen a.value.length :=
      encodeRecord_length a
    have hlen_cons : (encodeRecords (a :: as)).length
        = (encodeRecord a).length + (encodeRecords as).length := by
      rw [encodeRecords_cons]
      simp
    have hcur : cursor < limit := by omega
    cases fuel with
    | zero => omega
    | succ f =>
      simp only [findTlvWithTypeAux]
      rw [if_pos hcur]
      rw [encodeRecords_cons] at hdrop
      rw [List.append_assoc] at hdrop
      rw [hdrop]
      rw [nextTlvPosition_record a _ hwfa]
      have hcons : encodeRecord a ++ (encodeRecords as ++ tail)
          = a.t :: (encodeTlvLength a.value.length ++ a.value
              ++ (encodeRecords as ++ tail)) := by
        simp [encodeRecord]
      rw [hcons]
      simp only []
      rw [if_neg (hne a (by simp))]
      exact ih tail buffer limit (cursor + tlvTotalLen a.value.length) f ty
        (fun x hx => hwf x (by simp [hx]))
        (fun x hx => hne x (by simp [hx]))
        (by
          have hd2 : buffer.drop (cursor + tlvTotalLen a.value.length)
              = (buffer.drop cursor).drop (tlvTotalLen a.value.length) := by
            rw [List.drop_drop]
          rw [hd2, hdrop, drop_record])
        (by omega)
        (by omega)

theorem findTlvWithType_records_found (as bs : List TlvRec) (r : TlvRec)
    (pad ty : Nat) (hwf : ∀ x ∈ as ++ r :: bs, WFRec x)
    (has : ∀ a ∈ as, a.t ≠ ty) (hr : r.t = ty) (hpad : pad = 0 ∨ 2 ≤ pad) :
    findTlvWithType ty (encodeRecords (as ++ r :: bs) ++ List.replicate pad 0)
      = some (some ((encodeRecords as).length,
          (encodeRecords as).length + (encodeRecord r).length)) := by
  have hsplit : encodeRecords (as ++ r :: bs) ++ List.replicate pad 0
      = encodeRecords as ++ encodeRecord r
          ++ (encodeRecords bs ++ List.replicate pad 0) := by
    rw [encodeRecords_append, encodeRecords_cons]
    simp [List.append_assoc]
  simp only [findTlvWithType]
  rw [findBufferLen_records (as ++ r :: bs) pad hwf hpad]
  have happ := findTlvWithTypeAux_found as r
    (encodeRecords bs ++ List.replicate pad 0)
    (encodeRecords (as ++ r :: bs) ++ List.replicate pad 0)
    (encodeRecords (as ++ r :: bs)).length 0
    (encodeRecords (as ++ r :: bs) ++ List.replicate pad 0).length ty
    (fun x hx => hwf x (by simp [hx]))
    (hwf r (by simp))
    has hr
    (by rw [List.drop_zero, hsplit, List.append_assoc])
    (by
      rw [encodeRecords_append, encodeRecords_cons]
      simp)
    (by simp)
  show findTlvWithTypeAux ty (encodeRecords (as ++ r :: bs) ++ List.replicate pad 0)
      (encodeRecords (as ++ r :: bs)).length 0
      (encodeRecords (as ++ r :: bs) ++ List.replicate pad 0).length
    = some (some ((encodeRecords as).length,
        (encodeRecords as).length + (encodeRecord r).length))
  rw [happ]
  simp

theorem findTlvWithType_records_none (rs : List TlvRec) (pad ty : Nat)
    (hwf : ∀ x ∈ rs, WFRec x) (hne : ∀ x ∈ rs, x.t ≠ ty)
    (hpad : pad = 0 ∨ 2 ≤ pad) :
    findTlvWithType ty (encodeRecords rs ++ List.replicate pad 0) = some none := by
  simp only [findTlvWithType]
  rw [findBufferLen_records rs pad hwf hpad]
  exact findTlvWithTypeAux_none rs (List.replicate pad 0)
    (encodeRecords rs ++ List.replicate pad 0) (encodeRecords rs).length 0
    (encodeRecords rs ++ List.replicate pad 0).length ty hwf hne
    (by rw [List.drop_zero])
    (by omega)
    (by simp)

theorem removeDataAndCompact_records (as bs : List TlvRec) (r : TlvRec) (pad : Nat) :
    removeDataAndCompact (encodeRecords (as ++ r :: bs) ++ List.replicate pad 0)
      (encodeRecords as).length
      ((encodeRecords as).length + (encodeRecord r).length)
    = encodeRecords (as ++ bs)
        ++ List.replicate (pad + (encodeRecord r).length) 0 := by
  have hsplit : encodeRecords (as ++ r :: bs) ++ List.replicate pad 0
      = encodeRecords as
          ++ (encodeRecord r ++ (encodeRecords bs ++ List.replicate pad 0)) := by
    rw [encodeRecords_append, encodeRecords_cons]
    simp [List.append_assoc]
  have htake : (encodeRecords (as ++ r :: bs) ++ List.replicate pad 0).take
      (encodeRecords as).length = encodeRecords as := by
    rw [hsplit]
    exact List.take_left _ _
  have hsplit2 : encodeRecords (as ++ r :: bs) ++ List.replicate pad 0
      = (encodeRecords as ++ encodeRecord r)
          ++ (encodeRecords bs ++ List.replicate pad 0) := by
    rw [hsplit]
    simp [List.append_assoc]
  have hdrop : (encodeRecords (as ++ r :: bs) ++ List.replicate pad 0).drop
      ((encodeRecords as).length + (encodeRecord r).length)
      = encodeRecords bs ++ List.replicate pad 0 := by
    rw [hsplit2]
    rw [show (encodeRecords as).length + (encodeRecord r).length
      = (encodeRecords as ++ encodeRecord r).length by simp]
    exact List.drop_left _ _
  simp only [removeDataAndCompact, htake, hdrop]
  have hcount : (encodeRecords (as ++ r :: bs) ++ List.replicate pad 0).length
      - (encodeRecords as
          ++ (encodeRecords bs ++ List.replicate pad 0)).length
      = (encodeRecord r).length := by
    rw [hsplit]
    simp
    omega
  rw [hcount]
  rw [encodeRecords_append]
  rw [show pad + (encodeRecord r).length
    = pad + (encodeRecord r).length from rfl, List.replicate_add]
  simp [List.append_assoc]

/-- C6 (amended) — removing type `T` from a well-formed collection that
contains exactly one record of type `T` deletes that record: the remaining
records keep their bytes and relative order (the suffix shifts left by the
removed record's width), `find_tlv(T)` on the result returns `None`, the
logical length shrinks to the remaining records' total size, and every byte
past the new logical length is zero. -/
theorem remove_unique_type (as bs : List TlvRec) (r : TlvRec) (pad ty : Nat)
    (hwf : ∀ x ∈ as ++ r :: bs, WFRec x)
    (has : ∀ a ∈ as, a.t ≠ ty) (hbs : ∀ b ∈ bs, b.t ≠ ty) (hr : r.t = ty)
    (hpad : pad = 0 ∨ 2 ≤ pad) :
    removeTlv ty (encodeRecords (as ++ r :: bs) ++ List.replicate pad 0)
      = some (encodeRecords (as ++ bs)
          ++ List.replicate (pad + (encodeRecord r).length) 0)
    ∧ findTlv ty (encodeRecords (as ++ bs)
        ++ List.replicate (pad + (encodeRecord r).length) 0) = some none
    ∧ findBufferLen (encodeRecords (as ++ bs)
        ++ List.replicate (pad + (encodeRecord r).length) 0)
      = some (encodeRecords (as ++ bs)).length
    ∧ (encodeRecords (as ++ bs)
        ++ List.replicate (pad + (encodeRecord r).length) 0).drop
          (encodeRecords (as ++ bs)).length
      = List.replicate (pad + (encodeRecord r).length) 0 := by
  have hrlen : 3 ≤ (encodeRecord r).length := by
    rw [encodeRecord_length r]
    exact tlvTotalLen_ge _ (hwf r (by simp)).1
  have hwf2 : ∀ x ∈ as ++ bs, WFRec x := by
    intro x hx
    rcases List.mem_append.mp hx with h | h
    · exact hwf x (by simp [h])
    · exact hwf x (by simp [h])
  have hne2 : ∀ x ∈ as ++ bs, x.t ≠ ty := by
    intro x hx
    rcases List.mem_append.mp hx with h | h
    · exact has x h
    · exact hbs x h
  have hpad2 : pad + (encodeRecord r).length = 0 ∨ 2 ≤ pad + (encodeRecord r).length :=
    Or.inr (by omega)
  refine ⟨?_, ?_, findBufferLen_records _ _ hwf2 hpad2, ?_⟩
  · simp only [removeTlv]
    rw [findTlvWithType_records_found as bs r pad ty hwf has hr hpad]
    show some (removeDataAndCompact _ _ _) = _
    rw [removeDataAndCompact_records as bs r pad]
  · simp only [findTlv]
    rw [findTlvWithType_records_none (as ++ bs)
      (pad + (encodeRecord r).length) ty hwf2 hne2 hpad2]
  · exact List.drop_left _ _

/-- C6 witness — the crate's `success_remove_tlv` scenario: three records
`[02 02 AA AA] [01 04 AA BB CC DD] [03 02 BB BB]` with two bytes of padding;
removing type 1 shifts the third record left and zero-fills the tail. -/
theorem remove_unique_type_witness :
    removeTlv 1 (encodeRecords (([⟨2, [170, 170]⟩] : List TlvRec) ++
        (⟨1, [170, 187, 204, 221]⟩ : TlvRec) :: [⟨3, [187, 187]⟩]) ++ List.replicate 2 0)
      = some (encodeRecords (([⟨2, [170, 170]⟩] : List TlvRec) ++ ([⟨3, [187, 187]⟩] : List TlvRec))
          ++ List.replicate (2 + (encodeRecord (⟨1, [170, 187, 204, 221]⟩ : TlvRec)).length) 0)
    ∧ findTlv 1 (encodeRecords (([⟨2, [170, 170]⟩] : List TlvRec) ++ ([⟨3, [187, 187]⟩] : List TlvRec))
        ++ List.replicate (2 + (encodeRecord (⟨1, [170, 187, 204, 221]⟩ : TlvRec)).length) 0)
      = some none
    ∧ findBufferLen (encodeRecords (([⟨2, [170, 170]⟩] : List TlvRec) ++ ([⟨3, [187, 187]⟩] : List TlvRec))
        ++ List.replicate (2 + (encodeRecord (⟨1, [170, 187, 204, 221]⟩ : TlvRec)).length) 0)
      = some (encodeRecords (([⟨2, [170, 170]⟩] : List TlvRec) ++ ([⟨3, [187, 187]⟩] : List TlvRec))).length
    ∧ (encodeRecords (([⟨2, [170, 170]⟩] : List TlvRec) ++ ([⟨3, [187, 187]⟩] : List TlvRec))
        ++ List.replicate (2 + (encodeRecord (⟨1, [170, 187, 204, 221]⟩ : TlvRec)).length) 0).drop
          (encodeRecords (([⟨2, [170, 170]⟩] : List TlvRec) ++ ([⟨3, [187, 187]⟩] : List TlvRec))).length
      = List.replicate (2 + (encodeRecord (⟨1, [170, 187, 204, 221]⟩ : TlvRec)).length) 0 :=
  remove_unique_type [⟨2, [170, 170]⟩] [⟨3, [187, 187]⟩] ⟨1, [170, 187, 204, 221]⟩
    2 1 (by simp [WFRec]) (by simp) (by simp) rfl (by omega)

/-- C6 counterexample — with two records of type 1 in the collection,
`remove::<T>()` removes only the first, so `find_tlv(T::TLV_TYPE)` still
returns the second record, not `None`. -/
theorem remove_duplicate_type_cex :
    removeTlv 1 [1, 1, 170, 1, 1, 187, 0, 0] = some [1, 1, 187, 0, 0, 0, 0, 0]
    ∧ findTlv 1 [1, 1, 187, 0, 0, 0, 0, 0] = some (some [1, 1, 187])
    ∧ (some (some [1, 1, 187]) : Option (Option (List Nat))) ≠ some none := by
  decide

theorem pushBytes_records_ok (rs : List TlvRec) (pad ty : Nat) (vs : List Nat)
    (hwf : ∀ x ∈ rs, WFRec x) (hpad2 : 2 ≤ pad)
    (hfit : tlvTotalLen vs.length ≤ pad) (h65 : vs.length ≤ 65535) :
    pushBytes (encodeRecords rs ++ List.replicate pad 0) ty vs
      = some (encodeRecords rs ++ (encodeRecord ⟨ty, vs⟩
          ++ List.replicate (pad - tlvTotalLen vs.length) 0),
        .ok (tlvTotalLen vs.length)) := by
  have hfind := findBufferLen_records rs pad hwf (Or.inr hpad2)
  rw [pushBytes_unfold _ ty vs _ hfind]
  have hlen : (encodeRecords rs ++ List.replicate pad 0).length
      = (encodeRecords rs).length + pad := by simp
  have httl_ge : vs.length + 2 ≤ tlvTotalLen vs.length := by
    simp only [tlvTotalLen]
    split <;> omega
  rw [if_neg (by omega)]
  have hdropL : (encodeRecords rs ++ List.replicate pad 0).drop
      (encodeRecords rs).length = List.replicate pad 0 := List.drop_left _ _
  have htakeL : (encodeRecords rs ++ List.replicate pad 0).take
      (encodeRecords rs).length = encodeRecords rs := List.take_left _ _
  rw [hdropL]
  by_cases hstd : vs.length < 255
  · have httl : tlvTotalLen vs.length = vs.length + 2 := by
      simp only [tlvTotalLen]
      rw [if_pos hstd]
    rw [writeTlvBytes_ok_std (List.replicate pad 0) ty vs hstd
      (by simp; omega)]
    rw [htakeL]
    rw [List.drop_replicate]
    simp only [encodeRecord, encodeTlvLength, if_pos hstd]
    rw [httl]
    simp only [List.cons_append, List.nil_append, List.singleton_append]
    rw [Nat.add_comm 2 vs.length]
  · have httl : tlvTotalLen vs.length = vs.length + 4 := by
      simp only [tlvTotalLen]
      rw [if_neg hstd]
    have hmod : vs.length % 65536 = vs.length := Nat.mod_eq_of_lt (by omega)
    rw [writeTlvBytes_ok_ext (List.replicate pad 0) ty vs (by omega) h65
      (by simp; omega)]
    rw [htakeL]
    rw [List.drop_replicate]
    simp only [encodeRecord, encodeTlvLength, if_neg hstd, hmod]
    rw [httl]
    simp only [List.cons_append, List.nil_append, List.singleton_append]
    rw [Nat.add_comm 4 vs.length]

/-- C5 — replace semantics.  On a well-formed collection whose first record
of type `T` is `r`: when `T` has constant length (so the new value's length
equals the stored record's), `replace` overwrites the record in place at its
original byte offset, leaving every other record's bytes, their order, and the
total collection length unchanged; when `T` has variable length (and the new
record fits in the freed space plus padding), the old record is removed, the
following records shift left, and the new record is appended at the end of the
collection. -/
theorem replace_semantics (as bs : List TlvRec) (r : TlvRec) (pad ty : Nat)
    (vs : List Nat) (hwf : ∀ x ∈ as ++ r :: bs, WFRec x)
    (has : ∀ a ∈ as, a.t ≠ ty) (hr : r.t = ty)
    (hpad : pad = 0 ∨ 2 ≤ pad) :
    (vs.length = r.value.length →
      replaceBytes (encodeRecords (as ++ r :: bs) ++ List.replicate pad 0) ty true vs
        = some (encodeRecords as ++ (encodeRecord ⟨ty, vs⟩
            ++ (encodeRecords bs ++ List.replicate pad 0)), .ok ()))
    ∧ (vs.length ≤ 65535 →
        tlvTotalLen vs.length ≤ pad + (encodeRecord r).length →
      replaceBytes (encodeRecords (as ++ r :: bs) ++ List.replicate pad 0) ty false vs
        = some (encodeRecords (as ++ bs) ++ (encodeRecord ⟨ty, vs⟩
            ++ List.replicate (pad + (encodeRecord r).length
                - tlvTotalLen vs.length) 0),
          .ok ())) := by
  have hfind := findTlvWithType_records_found as bs r pad ty hwf has hr hpad
  have hwfr : WFRec r := hwf r (by simp)
  have hrlen : (encodeRecord r).length = tlvTotalLen r.value.length :=
    encodeRecord_length r
  have httlr : 3 ≤ tlvTotalLen r.value.length := tlvTotalLen_ge _ hwfr.1
  have hsplit : encodeRecords (as ++ r :: bs) ++ List.replicate pad 0
      = encodeRecords as
          ++ (encodeRecord r ++ (encodeRecords bs ++ List.replicate pad 0)) := by
    rw [encodeRecords_append, encodeRecords_cons]
    simp [List.append_assoc]
  have htakeA : (encodeRecords (as ++ r :: bs) ++ List.replicate pad 0).take
      (encodeRecords as).length = encodeRecords as := by
    rw [hsplit]
    exact List.take_left _ _
  have hdropA : (encodeRecords (as ++ r :: bs) ++ List.replicate pad 0).drop
      (encodeRecords as).length
      = encodeRecord r ++ (encodeRecords bs ++ List.replicate pad 0) := by
    rw [hsplit]
    exact List.drop_left _ _
  constructor
  · intro hvlen
    have httlv : tlvTotalLen vs.length = tlvTotalLen r.value.length := by
      rw [hvlen]
    simp only [replaceBytes, hfind]
    rw [hdropA]
    by_cases hstd : vs.length < 255
    · have httl : tlvTotalLen vs.length = vs.length + 2 := by
        simp only [tlvTotalLen]
        rw [if_pos hstd]
      rw [writeTlvBytes_ok_std (encodeRecord r
          ++ (encodeRecords bs ++ List.replicate pad 0)) ty vs hstd
        (by simp; omega)]
      rw [htakeA]
      have hdropR : (encodeRecord r
          ++ (encodeRecords bs ++ List.replicate pad 0)).drop (2 + vs.length)
          = encodeRecords bs ++ List.replicate pad 0 := by
        rw [show 2 + vs.length = (encodeRecord r).length by omega]
        exact List.drop_left _ _
      rw [hdropR]
      simp only [encodeRecord, encodeTlvLength, if_pos hstd]
      simp [List.append_assoc]
    · have httl : tlvTotalLen vs.length = vs.length + 4 := by
        simp only [tlvTotalLen]
        rw [if_neg hstd]
      have h65 : vs.length ≤ 65531 := by
        rw [hvlen]
        exact hwfr.2.1
      have hmod : vs.length % 65536 = vs.length := Nat.mod_eq_of_lt (by omega)
      rw [writeTlvBytes_ok_ext (encodeRecord r
          ++ (encodeRecords bs ++ List.replicate pad 0)) ty vs (by omega)
        (by omega) (by simp; omega)]
      rw [htakeA]
      have hdropR : (encodeRecord r
          ++ (encodeRecords bs ++ List.replicate pad 0)).drop (4 + vs.length)
          = encodeRecords bs ++ List.replicate pad 0 := by
        rw [show 4 + vs.length = (encodeRecord r).length by omega]
        exact List.drop_left _ _
      rw [hdropR]
      simp only [encodeRecord, encodeTlvLength, if_neg hstd, hmod]
      simp [List.append_assoc]
  · intro h65 hfit
    simp only [replaceBytes, hfind]
    simp only [Bool.false_eq_true, if_false]
    rw [removeDataAndCompact_records as bs r pad]
    rw [pushBytes_records_ok (as ++ bs) (pad + (encodeRecord r).length) ty vs
      (by
        intro x hx
        rcases List.mem_append.mp hx with h | h
        · exact hwf x (by simp [h])
        · exact hwf x (by simp [h]))
      (by omega) hfit h65]

/-- C5 witness — the crate's `success_replace_same_len_tlv` scenario
(`[01 04 AA AA AA AA 00 00]`, new value `AA BB CC DD`) for the in-place
branch, and the same collection for the remove-and-append branch. -/
theorem replace_semantics_witness :
    replaceBytes (encodeRecords (([] : List TlvRec) ++
        (⟨1, [170, 170, 170, 170]⟩ : TlvRec) :: []) ++ List.replicate 2 0)
      1 true [170, 187, 204, 221]
      = some (encodeRecords [] ++ (encodeRecord ⟨1, [170, 187, 204, 221]⟩
          ++ (encodeRecords [] ++ List.replicate 2 0)), .ok ())
    ∧ replaceBytes (encodeRecords (([] : List TlvRec) ++
        (⟨1, [170, 170, 170, 170]⟩ : TlvRec) :: []) ++ List.replicate 2 0)
      1 false [170, 187, 204, 221]
      = some (encodeRecords (([] : List TlvRec) ++ ([] : List TlvRec))
          ++ (encodeRecord ⟨1, [170, 187, 204, 221]⟩
            ++ List.replicate (2 + (encodeRecord (⟨1, [170, 170, 170, 170]⟩ : TlvRec)).length
                - tlvTotalLen ([170, 187, 204, 221] : List Nat).length) 0),
        .ok ()) :=
  ⟨(replace_semantics [] [] ⟨1, [170, 170, 170, 170]⟩ 2 1 [170, 187, 204, 221]
      (by simp [WFRec]) (by simp) rfl (by omega)).1 rfl,
   (replace_semantics [] [] ⟨1, [170, 170, 170, 170]⟩ 2 1 [170, 187, 204, 221]
      (by simp [WFRec]) (by simp) rfl (by omega)).2 (by decide) (by decide)⟩
